import Mathlib

/-!
Verification development for the `kdetools` Gaussian KDE extension
(`kdetools/kde.py`).

The Python code extends `scipy.stats.gaussian_kde` with

* `_mvn_logpdf` : a vectorised multivariate-normal log-density evaluator,
* `kfold_split` : a lightweight k-fold cross-validation splitter,
* `silverman_factor_ref` : a refined Silverman bandwidth factor,
* `set_bandwidth` : bandwidth selection by cross-validation,
* `_compute_covariance` : kernel-covariance derivation from a bandwidth spec,
* `conditional_resample` : conditional sampling via Schur complements.

Floating-point arrays are modelled over the reals.  External library
services (eigendecomposition `np.linalg.eigh`, Cholesky factorisation,
the Nelder-Mead optimizer, random draws) are modelled as explicit
function parameters; theorems that depend on a library contract state
it as a hypothesis.
-/

namespace Kdetools

open Matrix

/-- Models `np.spacing(1)`: the gap between 1.0 and the next float, i.e. 2^(-52). -/
noncomputable def spacing1 : ℝ := (2 : ℝ) ^ (-52 : ℤ)

lemma spacing1_pos : 0 < spacing1 := by
  unfold spacing1
  positivity

/-! ## The MVN evaluator (`_mvn_logpdf`, lines 20-61)

`_mvn_logpdf(x, mu, cov)` calls the external `np.linalg.eigh(cov)` to get
eigenvalues `s0` and an eigenvector matrix `u`, floors the eigenvalues as
`s = |s0| + spacing1`, and then computes for every pair `(i, j)`

  `-0.5 * (k*log(2*pi) + sum(log s) + ((x[i]-mu[j]) @ u)^2 / s summed)`.

We model `eigh` as an explicit function parameter from a matrix to an
eigenvalue vector and eigenvector matrix. -/

/-- Floored eigenvalues: `s = np.abs(s) + np.spacing(1)` (line 48). -/
noncomputable def floorEig {dd : ℕ} (s0 : Fin dd → ℝ) : Fin dd → ℝ :=
  fun c => |s0 c| + spacing1

/-- One entry of the `_mvn_logpdf` output: the term structure of lines 51-56,
for a single difference vector `diff = x[i] - mu[j]`.  The Mahalanobis sum
is `(np.square(diff @ u) / s).sum()`. -/
noncomputable def logpdfEntry {dd : ℕ} (s0 : Fin dd → ℝ)
    (u : Matrix (Fin dd) (Fin dd) ℝ) (diff : Fin dd → ℝ) : ℝ :=
  let s := floorEig s0
  let klog2pi := (dd : ℝ) * Real.log (2 * Real.pi)
  let logPdet := ∑ c, Real.log (s c)
  let maha := ∑ c, (∑ l, diff l * u l c) ^ 2 / s c
  let res := -0.5 * (klog2pi + logPdet + maha)
  res

/-- Embedding of `_mvn_logpdf(x, mu, cov)` (lines 20-57): the `(m, p)` array of
log-densities, with the eigendecomposition delegated to the external
`eigh` parameter. -/
noncomputable def mvn_logpdf {dd m p : ℕ}
    (eigh : Matrix (Fin dd) (Fin dd) ℝ → (Fin dd → ℝ) × Matrix (Fin dd) (Fin dd) ℝ)
    (x : Fin m → Fin dd → ℝ) (mu : Fin p → Fin dd → ℝ)
    (cov : Matrix (Fin dd) (Fin dd) ℝ) : Fin m → Fin p → ℝ :=
  fun i j => logpdfEntry (eigh cov).1 (eigh cov).2 (fun l => x i l - mu j l)

/-- Embedding of `_mvn_pdf` (lines 59-61): elementwise `exp` of `_mvn_logpdf`, in the
list layout used by the cross-validation objective (`Xeval` rows by
`Xfit` rows). -/
noncomputable def mvn_pdfL {dd : ℕ}
    (eigh : Matrix (Fin dd) (Fin dd) ℝ → (Fin dd → ℝ) × Matrix (Fin dd) (Fin dd) ℝ)
    (xeval xfit : List (Fin dd → ℝ)) (cov : Matrix (Fin dd) (Fin dd) ℝ) :
    List (List ℝ) :=
  xeval.map fun xe =>
    xfit.map fun xf =>
      Real.exp (logpdfEntry (eigh cov).1 (eigh cov).2 (fun l => xe l - xf l))

/-! ## k-fold splitting (`kfold_split`, lines 63-67)

`kfold_split(X, k)` calls `np.array_split(np.arange(n), k)` with
`n = X.shape[0]` and builds, for each fold `j`, the pair
`(concatenate of all blocks i != j, block j)`.

`np.array_split` on `arange(n)` produces `k` contiguous sections: the
first `n % k` sections have size `n / k + 1` and the remaining sections
have size `n / k`.  We embed it from that contract via the closed forms
for the section sizes and the cumulative start offsets. -/

/-- Size of section `j` of `np.array_split(np.arange(n), k)`. -/
def sectionSize (n k j : ℕ) : ℕ :=
  if j < n % k then n / k + 1 else n / k

/-- Start offset of section `j`: the sum of the sizes of sections `0..j-1`. -/
def sectionStart (n k j : ℕ) : ℕ :=
  j * (n / k) + min j (n % k)

/-- Models `np.array_split(np.arange(n), k)`: the list of `k` contiguous index
blocks. -/
def arraySplit (n k : ℕ) : List (List ℕ) :=
  (List.range k).map fun j =>
    (List.range (sectionSize n k j)).map fun t => sectionStart n k j + t

/-- Embedding of `kfold_split` (lines 63-67): for each fold `j`, train is the
concatenation of all other blocks (ascending `i`, as iterating
`set(range(k)) - \x7bj\x7d` does) and test is block `j`. -/
def kfold_split (n k : ℕ) : List (List ℕ × List ℕ) :=
  let splits := arraySplit n k
  (List.range k).map fun j =>
    ((((List.range k).filter fun i => i ≠ j).map fun i => splits.getD i []).flatten,
     splits.getD j [])

/-- The block sizes that the specification text predicts: contiguous blocks
split as evenly as possible with the LAST blocks absorbing the remainder. -/
def lastAbsorbSizes (n k : ℕ) : List ℕ :=
  (List.range k).map fun j => if j < k - n % k then n / k else n / k + 1

/-! ## Refined Silverman factor (`silverman_factor_ref`, lines 69-80)

The routine computes, per dimension,
`0.9 * min(iqr/1.34, std(ddof=1)) * neff^(-1/5) / std(ddof=1)`,
where `iqr` is the difference of the 0.75 and 0.25 `np.quantile` values
of that dimension and `neff` is the effective sample size inherited from
`scipy.stats.gaussian_kde` (`1 / sum(weights^2)` with normalised
weights). -/

/-- Ascending sort of a list of reals, as `np.quantile` performs
internally. -/
noncomputable def sortR (xs : List ℝ) : List ℝ := xs.mergeSort

/-- Models `np.quantile(xs, q)` with the default linear interpolation method:
with `ys` the sorted data and virtual index `h = q * (len - 1)`,
`i = floor h`, `g = h - i`, the result is `ys[i] + g * (ys[i+1] - ys[i])`. -/
noncomputable def npQuantile (xs : List ℝ) (q : ℝ) : ℝ :=
  let ys := sortR xs
  let hh : ℝ := q * ((xs.length : ℝ) - 1)
  let i : ℕ := ⌊hh⌋₊
  let g : ℝ := hh - (i : ℝ)
  ys.getD i 0 + g * (ys.getD (i + 1) 0 - ys.getD i 0)

/-- Unweighted mean of a row. -/
noncomputable def rowMean {n : ℕ} (xs : Fin n → ℝ) : ℝ :=
  (∑ t, xs t) / n

/-- Models `np.std(xs, ddof=1)`: square root of the unbiased sample variance. -/
noncomputable def stdDdof1 {n : ℕ} (xs : Fin n → ℝ) : ℝ :=
  Real.sqrt ((∑ t, (xs t - rowMean xs) ^ 2) / ((n : ℝ) - 1))

/-- Effective sample size `neff = 1 / sum(weights^2)` (from the scipy
parent class; the weights are normalised to sum to 1, uniform `1/n` by
default). -/
noncomputable def neff {n : ℕ} (w : Fin n → ℝ) : ℝ :=
  1 / ∑ t, w t ^ 2

/-- Embedding of `silverman_factor_ref` (lines 69-80): the dataset is a `(d, n)` array;
per dimension `r`, `iqrs` is the `np.diff` of the 0.25/0.75 quantiles of
row `r`, and the result is
`(0.9 * min(iqrs/1.34, std) * neff^(-1/5)) / std`. -/
noncomputable def silverman_factor_ref {dd n : ℕ}
    (dataset : Fin dd → Fin n → ℝ) (w : Fin n → ℝ) : Fin dd → ℝ :=
  fun r =>
    let row := List.ofFn (dataset r)
    let iqr := npQuantile row 0.75 - npQuantile row 0.25
    let sd := stdDdof1 (dataset r)
    0.9 * min (iqr / 1.34) sd * neff w ^ (-(1 / 5) : ℝ) / sd

/-- The per-dimension factor exactly as the specification text states it:
`min(IQR/1.34, std) * neff^(-1/5) / std`, with no leading constant. -/
noncomputable def silverman_factor_spec {dd n : ℕ}
    (dataset : Fin dd → Fin n → ℝ) (w : Fin n → ℝ) : Fin dd → ℝ :=
  fun r =>
    let row := List.ofFn (dataset r)
    let iqr := npQuantile row 0.75 - npQuantile row 0.25
    let sd := stdDdof1 (dataset r)
    min (iqr / 1.34) sd * neff w ^ (-(1 / 5) : ℝ) / sd

/-! ## Covariance derivation (`_compute_covariance`, lines 139-161)

The bandwidth state is a tagged factor: a per-dimension vector for
`diagonal`, a scalar for `covariance`, `equal` and the legacy
`covariance_original`.  Lines 153-158 derive the kernel covariance. -/

/-- Weighted empirical covariance `np.cov(dataset, rowvar=1, bias=False,
aweights=w)` (lines 149-150): with `v1 = sum w` and `v2 = sum w^2`, entry
`(a, b)` is `sum_t w_t (x_at - m_a)(x_bt - m_b) / (v1 - v2 / v1)`, where
`m_a` is the `w`-weighted mean of row `a`. -/
noncomputable def np_cov {dd n : ℕ} (dataset : Fin dd → Fin n → ℝ)
    (w : Fin n → ℝ) : Matrix (Fin dd) (Fin dd) ℝ :=
  let v1 := ∑ t, w t
  let v2 := ∑ t, w t ^ 2
  let m : Fin dd → ℝ := fun a => (∑ t, w t * dataset a t) / v1
  fun a b => (∑ t, w t * (dataset a t - m a) * (dataset b t - m b)) / (v1 - v2 / v1)

/-- Unweighted empirical covariance `np.cov(Xfit.T)` of a list of points
(rows of the fold train set), with the default `ddof=1` normalisation. -/
noncomputable def np_cov_list {dd : ℕ} (pts : List (Fin dd → ℝ)) :
    Matrix (Fin dd) (Fin dd) ℝ :=
  let nn := pts.length
  let m : Fin dd → ℝ := fun a => (pts.map fun x => x a).sum / nn
  fun a b => ((pts.map fun x => (x a - m a) * (x b - m b)).sum) / ((nn : ℝ) - 1)

/-- The bandwidth factor stored in `self.h` / `self.factor`: a
per-dimension vector for `diagonal`, a scalar otherwise (`BandwidthSpec`
tagged union). -/
inductive BwSpec (dd : ℕ) where
  | diagonal (v : Fin dd → ℝ)
  | covariance (c : ℝ)
  | equal (c : ℝ)
  | covariance_original (c : ℝ)

/-- Lines 153-158 of `_compute_covariance`: `np.diag(factor**2)` for
`diagonal`, `np.eye(d) * factor**2` for `equal`, and
`data_covariance * factor**2` for `covariance` and
`covariance_original`. -/
noncomputable def compute_covariance {dd : ℕ}
    (data_covariance : Matrix (Fin dd) (Fin dd) ℝ) :
    BwSpec dd → Matrix (Fin dd) (Fin dd) ℝ
  | .diagonal v => fun i j => if i = j then v i ^ 2 else 0
  | .equal c => fun i j => (if i = j then 1 else 0) * c ^ 2
  | .covariance c => fun i j => data_covariance i j * c ^ 2
  | .covariance_original c => fun i j => data_covariance i j * c ^ 2

/-! ## Cross-validation objective (`set_bandwidth`, lines 96-134)

For `bw_method=cv`, one of three per-fold negative log-likelihood
closures is built (lines 101-115): each evaluates the `_mvn_pdf` array
of test points against train kernels with the type-specific covariance,
takes the mean across kernels (`axis=1`), then `-log(...)`, summed.
The objective (lines 127-128) is the `np.mean` of the per-fold values. -/

/-- Models `np.diag(h**2)` used by the `diagonal` objective (line 102). -/
noncomputable def diagCov {dd : ℕ} (h : Fin dd → ℝ) : Matrix (Fin dd) (Fin dd) ℝ :=
  fun i j => if i = j then h i ^ 2 else 0

/-- Models `np.cov(Xfit.T) * h**2` used by the `covariance` objective (line 108). -/
noncomputable def foldCov {dd : ℕ} (pts : List (Fin dd → ℝ)) (h : ℝ) :
    Matrix (Fin dd) (Fin dd) ℝ :=
  fun i j => np_cov_list pts i j * h ^ 2

/-- Models `np.eye(d) * h**2` used by the `equal` objective (line 114). -/
noncomputable def eyeCov (dd : ℕ) (h : ℝ) : Matrix (Fin dd) (Fin dd) ℝ :=
  fun i j => (if i = j then 1 else 0) * h ^ 2

/-- The `diagonal` per-fold objective (lines 101-103):
`-np.log(_mvn_pdf(Xeval, Xfit, np.diag(h**2)).mean(axis=1)).sum()`. -/
noncomputable def negloglike_diagonal {dd : ℕ}
    (eigh : Matrix (Fin dd) (Fin dd) ℝ → (Fin dd → ℝ) × Matrix (Fin dd) (Fin dd) ℝ)
    (h : Fin dd → ℝ) (xeval xfit : List (Fin dd → ℝ)) : ℝ :=
  -((mvn_pdfL eigh xeval xfit (diagCov h)).map fun row =>
      Real.log (row.sum / (row.length : ℝ))).sum

/-- The `covariance` per-fold objective (lines 107-109). -/
noncomputable def negloglike_covariance {dd : ℕ}
    (eigh : Matrix (Fin dd) (Fin dd) ℝ → (Fin dd → ℝ) × Matrix (Fin dd) (Fin dd) ℝ)
    (h : ℝ) (xeval xfit : List (Fin dd → ℝ)) : ℝ :=
  -((mvn_pdfL eigh xeval xfit (foldCov xfit h)).map fun row =>
      Real.log (row.sum / (row.length : ℝ))).sum

/-- The `equal` per-fold objective (lines 113-115). -/
noncomputable def negloglike_equal {dd : ℕ}
    (eigh : Matrix (Fin dd) (Fin dd) ℝ → (Fin dd → ℝ) × Matrix (Fin dd) (Fin dd) ℝ)
    (h : ℝ) (xeval xfit : List (Fin dd → ℝ)) : ℝ :=
  -((mvn_pdfL eigh xeval xfit (eyeCov dd h)).map fun row =>
      Real.log (row.sum / (row.length : ℝ))).sum

/-- Fancy indexing `X[idxs]` of a list of data points by a list of row
indices. -/
def fancyIdx {dd : ℕ} (X : List (Fin dd → ℝ)) (idxs : List ℕ) :
    List (Fin dd → ℝ) :=
  idxs.map fun t => X.getD t (fun _ => 0)

/-- Embedding of `negloglike_cv` (lines 127-128):
`np.mean([negloglike(h, X[j], X[i]) for i, j in splits])`, with the
trial factor already applied inside `nll`. -/
noncomputable def negloglike_cv {dd : ℕ}
    (nll : List (Fin dd → ℝ) → List (Fin dd → ℝ) → ℝ)
    (X : List (Fin dd → ℝ)) (splits : List (List ℕ × List ℕ)) : ℝ :=
  ((splits.map fun ij => nll (fancyIdx X ij.2) (fancyIdx X ij.1)).sum) /
    (splits.length : ℝ)

/-- The cross-validation objective exactly as the specification words it:
per fold, the sum over test points of `-log` of the mean per-kernel
density; overall, the unweighted mean of the per-fold values. -/
noncomputable def fold_nll_spec {dd : ℕ}
    (eigh : Matrix (Fin dd) (Fin dd) ℝ → (Fin dd → ℝ) × Matrix (Fin dd) (Fin dd) ℝ)
    (cov : Matrix (Fin dd) (Fin dd) ℝ) (test train : List (Fin dd → ℝ)) : ℝ :=
  (test.map fun x =>
    -Real.log ((train.map fun y =>
        Real.exp (logpdfEntry (eigh cov).1 (eigh cov).2 (fun l => x l - y l))).sum /
      (train.length : ℝ))).sum

/-! ## Bandwidth selection state (`set_bandwidth`, lines 96-137) -/

/-- The mutable bandwidth state of the fitted estimator: the fields read
by callers and mutated by `set_bandwidth` / `_compute_covariance`. -/
structure KDEState (dd : ℕ) where
  bw_type : String
  h : BwSpec dd
  factor : BwSpec dd
  covariance : Matrix (Fin dd) (Fin dd) ℝ
  cho_cov : Matrix (Fin dd) (Fin dd) ℝ
  log_det : ℝ
  loglike_cv : ℝ
  data_covariance : Matrix (Fin dd) (Fin dd) ℝ

/-- Installing an optimisation result (lines 119, 131-134 plus
`_compute_covariance`, lines 139-161): store the type and factor, negate
the objective value into the score, derive the covariance, and refresh
the Cholesky factor (delegated to the external `cholesky` parameter) and
log-determinant. -/
noncomputable def install_cv {dd : ℕ}
    (cholesky : Matrix (Fin dd) (Fin dd) ℝ → Matrix (Fin dd) (Fin dd) ℝ)
    (dcov : Matrix (Fin dd) (Fin dd) ℝ) (st : KDEState dd) (bt : String)
    (hnew : BwSpec dd) (fval : ℝ) : KDEState dd :=
  let cov := compute_covariance dcov hnew
  let cho := cholesky cov
  { st with
    bw_type := bt
    h := hnew
    factor := hnew
    loglike_cv := -fval
    covariance := cov
    cho_cov := cho
    log_det := 2 * ∑ i, Real.log (cho i i * Real.sqrt (2 * Real.pi))
    data_covariance := dcov }

/-- The diagnostic message emitted by the `else` branch of lines 116-118. -/
def invalidMsg : String := "bw_type must be diagonal, covariance or equal"

/-- Embedding of `set_bandwidth(bw_method=cv, bw_type, k)` (lines 96-134).  The
external Nelder-Mead optimizer is modelled by the `minimizeVec` /
`minimizeSc` parameters (unconstrained: they receive a total objective
and a start point and return an argmin and the objective value there).
An unrecognised `bw_type` hits the `else` branch of lines 116-118: the
message is emitted and the function returns with no state mutation. -/
noncomputable def set_bandwidth_cv {dd n : ℕ}
    (eigh : Matrix (Fin dd) (Fin dd) ℝ → (Fin dd → ℝ) × Matrix (Fin dd) (Fin dd) ℝ)
    (cholesky : Matrix (Fin dd) (Fin dd) ℝ → Matrix (Fin dd) (Fin dd) ℝ)
    (minimizeVec : ((Fin dd → ℝ) → ℝ) → (Fin dd → ℝ) → (Fin dd → ℝ) × ℝ)
    (minimizeSc : (ℝ → ℝ) → ℝ → ℝ × ℝ)
    (dataset : Fin dd → Fin n → ℝ) (w : Fin n → ℝ) (st : KDEState dd)
    (bw_type : String) (k : Option ℕ) : KDEState dd × Option String :=
  let X : List (Fin dd → ℝ) := List.ofFn fun t : Fin n => fun r => dataset r t
  let kk := k.getD n
  let splits := kfold_split n kk
  let dcov := np_cov dataset w
  if bw_type = "diagonal" then
    let h0 : Fin dd → ℝ := fun r => stdDdof1 (dataset r) * silverman_factor_ref dataset w r
    let res := minimizeVec
      (fun h => negloglike_cv (negloglike_diagonal eigh h) X splits) h0
    (install_cv cholesky dcov st bw_type (.diagonal res.1) res.2, none)
  else if bw_type = "covariance" then
    let h0 : ℝ := (∑ r, silverman_factor_ref dataset w r) / (dd : ℝ)
    let res := minimizeSc
      (fun h => negloglike_cv (negloglike_covariance eigh h) X splits) h0
    (install_cv cholesky dcov st bw_type (.covariance res.1) res.2, none)
  else if bw_type = "equal" then
    let flat : List ℝ := ((List.ofFn fun r => List.ofFn (dataset r)).flatten)
    let sdAll := Real.sqrt
      ((flat.map fun x => (x - flat.sum / (flat.length : ℝ)) ^ 2).sum /
        ((flat.length : ℝ) - 1))
    let h0 : ℝ := sdAll * ((∑ r, silverman_factor_ref dataset w r) / (dd : ℝ))
    let res := minimizeSc
      (fun h => negloglike_cv (negloglike_equal eigh h) X splits) h0
    (install_cv cholesky dcov st bw_type (.equal res.1) res.2, none)
  else
    (st, some invalidMsg)

/-! ## Conditional sampling (`conditional_resample`, lines 176-237)

The random elements (the multinomial kernel-count draw of line 221 and
the zero-mean noise of lines 235-236) are modelled as explicit inputs
`counts` and `anoms`; everything else is deterministic. -/

/-- Models `np.setdiff1d(range(self.d), dims_cond)` (line 206): the sorted
order-preserving complement of the conditioning dimensions. -/
def dimsSamp (dd : ℕ) (dims_cond : List (Fin dd)) : List (Fin dd) :=
  (List.finRange dd).filter fun i => i ∉ dims_cond

/-- Embedding of `B @ np.linalg.inv(C)` (line 224), with the covariance blocks
`B = cov[samp, cond]` and `C = cov[cond, cond]` of lines 209-211. -/
noncomputable def schurBCinv {dd r q : ℕ} (cov : Matrix (Fin dd) (Fin dd) ℝ)
    (ss : Fin r → Fin dd) (sc : Fin q → Fin dd) : Matrix (Fin r) (Fin q) ℝ :=
  (cov.submatrix ss sc) * (cov.submatrix sc sc)⁻¹

/-- Embedding of `cov = A - BCinv @ B.T` (line 225), written entrywise as the numpy
products evaluate. -/
noncomputable def cond_cov {dd r q : ℕ} (cov : Matrix (Fin dd) (Fin dd) ℝ)
    (ss : Fin r → Fin dd) (sc : Fin q → Fin dd) : Matrix (Fin r) (Fin r) ℝ :=
  fun t t' => cov.submatrix ss ss t t' -
    ∑ c, schurBCinv cov ss sc t c * cov.submatrix ss sc t' c

/-- Lines 226-227: `mus = swapaxes(dataset[samp] + BCinv @
(x_cond[:, :, None] - dataset[cond]), 1, 2)`, written entrywise as the
broadcasting evaluates: entry `(query, kernel, t)`. -/
noncomputable def cond_mus {dd r q m n : ℕ} (dataset : Fin dd → Fin n → ℝ)
    (cov : Matrix (Fin dd) (Fin dd) ℝ) (ss : Fin r → Fin dd)
    (sc : Fin q → Fin dd) (x_cond : Fin m → Fin q → ℝ) :
    Fin m → Fin n → Fin r → ℝ :=
  fun qi j t => dataset (ss t) j +
    ∑ c, schurBCinv cov ss sc t c * (x_cond qi c - dataset (sc c) j)

/-- Lines 231-232: repeat each kernel mean as often as its sampled count
(`np.repeat(..., counts.ravel())`), per query. -/
def expandRows {n : ℕ} {α : Type} (mus : Fin n → α) (counts : Fin n → ℕ) :
    List α :=
  (List.ofFn fun j => List.replicate (counts j) (mus j)).flatten

/-- Embedding of `conditional_resample` (lines 176-237) with the two random draws
passed in: the output tensor entry `(query, sample, t)` is the expanded
conditional mean plus the zero-mean conditional-covariance noise. -/
noncomputable def conditional_resample {dd n m : ℕ}
    (dataset : Fin dd → Fin n → ℝ) (cov : Matrix (Fin dd) (Fin dd) ℝ)
    (size : ℕ) (dims_cond : List (Fin dd))
    (x_cond : Fin m → Fin dims_cond.length → ℝ)
    (counts : Fin m → Fin n → ℕ)
    (anoms : Fin m → Fin size → Fin (dimsSamp dd dims_cond).length → ℝ) :
    Fin m → Fin size → Fin (dimsSamp dd dims_cond).length → ℝ :=
  let ss := fun t => (dimsSamp dd dims_cond).get t
  let sc := fun c => dims_cond.get c
  let mus := cond_mus dataset cov ss sc x_cond
  fun qi t s => (expandRows (mus qi) (counts qi)).getD t (fun _ => 0) s + anoms qi t s

/-! ## Helper lemmas -/

lemma neg_sum_map {α : Type} (l : List α) (f : α → ℝ) :
    -((l.map f).sum) = (l.map fun x => -(f x)).sum := by
  induction l with
  | nil => simp
  | cons a l ih => simp [ih]; ring

lemma np_cov_apply_symm {dd n : ℕ} (dataset : Fin dd → Fin n → ℝ)
    (w : Fin n → ℝ) (a b : Fin dd) :
    np_cov dataset w a b = np_cov dataset w b a := by
  simp only [np_cov]
  congr 1
  apply Finset.sum_congr rfl
  intro t _
  ring

lemma diagCov_neg {dd : ℕ} (h : Fin dd → ℝ) :
    diagCov (fun i => -h i) = diagCov h := by
  funext i j
  simp [diagCov]

lemma diagCov_abs {dd : ℕ} (h : Fin dd → ℝ) :
    diagCov (fun i => |h i|) = diagCov h := by
  funext i j
  simp [diagCov, sq_abs]

lemma foldCov_neg {dd : ℕ} (pts : List (Fin dd → ℝ)) (h : ℝ) :
    foldCov pts (-h) = foldCov pts h := by
  funext i j
  simp [foldCov]

lemma foldCov_abs {dd : ℕ} (pts : List (Fin dd → ℝ)) (h : ℝ) :
    foldCov pts |h| = foldCov pts h := by
  funext i j
  simp [foldCov, sq_abs]

lemma eyeCov_neg (dd : ℕ) (h : ℝ) : eyeCov dd (-h) = eyeCov dd h := by
  funext i j
  simp [eyeCov]

lemma eyeCov_abs (dd : ℕ) (h : ℝ) : eyeCov dd |h| = eyeCov dd h := by
  funext i j
  simp [eyeCov, sq_abs]

/-! ## Claim C10 : the objective and the derived covariance depend on the
factor only through its elementwise square -/

/-- Claim C10: for every real trial factor (vector or scalar), every
dataset and every fold, each of the three per-fold objectives and each of
the covariance derivations is invariant under replacing the factor by its
elementwise negation or absolute value, since both only enter through
their square. -/
theorem C10_square_dependence {dd : ℕ}
    (eigh : Matrix (Fin dd) (Fin dd) ℝ → (Fin dd → ℝ) × Matrix (Fin dd) (Fin dd) ℝ)
    (hv : Fin dd → ℝ) (hc he : ℝ) (xeval xfit : List (Fin dd → ℝ))
    (dcov : Matrix (Fin dd) (Fin dd) ℝ) :
    (negloglike_diagonal eigh (fun i => -hv i) xeval xfit =
        negloglike_diagonal eigh hv xeval xfit ∧
      negloglike_diagonal eigh (fun i => |hv i|) xeval xfit =
        negloglike_diagonal eigh hv xeval xfit) ∧
    (negloglike_covariance eigh (-hc) xeval xfit =
        negloglike_covariance eigh hc xeval xfit ∧
      negloglike_covariance eigh |hc| xeval xfit =
        negloglike_covariance eigh hc xeval xfit) ∧
    (negloglike_equal eigh (-he) xeval xfit =
        negloglike_equal eigh he xeval xfit ∧
      negloglike_equal eigh |he| xeval xfit =
        negloglike_equal eigh he xeval xfit) ∧
    (compute_covariance dcov (.diagonal fun i => -hv i) =
        compute_covariance dcov (.diagonal hv) ∧
      compute_covariance dcov (.diagonal fun i => |hv i|) =
        compute_covariance dcov (.diagonal hv)) ∧
    (compute_covariance dcov (.covariance (-hc)) =
        compute_covariance dcov (.covariance hc) ∧
      compute_covariance dcov (.covariance |hc|) =
        compute_covariance dcov (.covariance hc)) ∧
    (compute_covariance dcov (.equal (-he)) =
        compute_covariance dcov (.equal he) ∧
      compute_covariance dcov (.equal |he|) =
        compute_covariance dcov (.equal he)) := by
  refine ⟨⟨?_, ?_⟩, ⟨?_, ?_⟩, ⟨?_, ?_⟩, ⟨?_, ?_⟩, ⟨?_, ?_⟩, ⟨?_, ?_⟩⟩
  · rw [negloglike_diagonal, diagCov_neg]; rfl
  · rw [negloglike_diagonal, diagCov_abs]; rfl
  · rw [negloglike_covariance, foldCov_neg]; rfl
  · rw [negloglike_covariance, foldCov_abs]; rfl
  · rw [negloglike_equal, eyeCov_neg]; rfl
  · rw [negloglike_equal, eyeCov_abs]; rfl
  · funext i j; simp [compute_covariance]
  · funext i j; simp [compute_covariance, sq_abs]
  · funext i j; simp [compute_covariance]
  · funext i j; simp [compute_covariance, sq_abs]
  · funext i j; simp [compute_covariance]
  · funext i j; simp [compute_covariance, sq_abs]

/-! ## Claim C5 : covariance derivation -/

/-- Claim C5: deriving the kernel covariance yields `diag(factor^2)` for
`diagonal`, `DataCovariance * factor^2` for `covariance` and
`I * factor^2` for `equal`; in every case the result is symmetric, and
for `diagonal` and `equal` it is exactly diagonal. -/
theorem C5_derive_covariance {dd n : ℕ} (dataset : Fin dd → Fin n → ℝ)
    (w : Fin n → ℝ) (v : Fin dd → ℝ) (c e : ℝ) :
    compute_covariance (np_cov dataset w) (.diagonal v) =
        Matrix.diagonal (fun i => v i ^ 2) ∧
    compute_covariance (np_cov dataset w) (.covariance c) =
        c ^ 2 • np_cov dataset w ∧
    compute_covariance (np_cov dataset w) (.equal e) =
        e ^ 2 • (1 : Matrix (Fin dd) (Fin dd) ℝ) ∧
    (∀ sp : BwSpec dd,
      (compute_covariance (np_cov dataset w) sp)ᵀ =
        compute_covariance (np_cov dataset w) sp) ∧
    (∀ i j : Fin dd, i ≠ j →
      compute_covariance (np_cov dataset w) (.diagonal v) i j = 0) ∧
    (∀ i j : Fin dd, i ≠ j →
      compute_covariance (np_cov dataset w) (.equal e) i j = 0) := by
  refine ⟨?_, ?_, ?_, ?_, ?_, ?_⟩
  · funext i j
    by_cases h : i = j <;> simp [compute_covariance, Matrix.diagonal, h]
  · funext i j
    simp [compute_covariance, Matrix.smul_apply, mul_comm]
  · funext i j
    by_cases h : i = j <;> simp [compute_covariance, Matrix.one_apply, h]
  · intro sp
    cases sp with
    | diagonal v =>
        funext i j
        by_cases h : i = j <;>
          simp [compute_covariance, Matrix.transpose_apply, h, eq_comm]
    | covariance c =>
        funext i j
        simp [compute_covariance, Matrix.transpose_apply,
          np_cov_apply_symm dataset w j i]
    | equal c =>
        funext i j
        by_cases h : i = j <;>
          simp [compute_covariance, Matrix.transpose_apply, h, eq_comm]
    | covariance_original c =>
        funext i j
        simp [compute_covariance, Matrix.transpose_apply,
          np_cov_apply_symm dataset w j i]
  · intro i j h
    simp [compute_covariance, h]
  · intro i j h
    simp [compute_covariance, h]

/-- Concrete one-point dataset for the C5 instantiation. -/
noncomputable def c5data : Fin 1 → Fin 1 → ℝ := fun _ _ => 0

/-- Concrete weights for the C5 instantiation. -/
noncomputable def c5w : Fin 1 → ℝ := fun _ => 1

/-- Concrete diagonal factor vector for the C5 instantiation. -/
noncomputable def c5v : Fin 1 → ℝ := fun _ => 2

/-- Witness for C5 at a concrete dataset and concrete factors. -/
theorem C5_derive_covariance_witness :
    compute_covariance (np_cov c5data c5w) (.diagonal c5v) =
        Matrix.diagonal (fun i => c5v i ^ 2) ∧
    compute_covariance (np_cov c5data c5w) (.covariance 3) =
        (3 : ℝ) ^ 2 • np_cov c5data c5w ∧
    compute_covariance (np_cov c5data c5w) (.equal 4) =
        (4 : ℝ) ^ 2 • (1 : Matrix (Fin 1) (Fin 1) ℝ) ∧
    (∀ sp : BwSpec 1,
      (compute_covariance (np_cov c5data c5w) sp)ᵀ =
        compute_covariance (np_cov c5data c5w) sp) ∧
    (∀ i j : Fin 1, i ≠ j →
      compute_covariance (np_cov c5data c5w) (.diagonal c5v) i j = 0) ∧
    (∀ i j : Fin 1, i ≠ j →
      compute_covariance (np_cov c5data c5w) (.equal 4) i j = 0) :=
  C5_derive_covariance c5data c5w c5v 3 4

/-! ## Claim C8 : unknown bandwidth type aborts the selection -/

/-- Claim C8: when `set_bandwidth` is called with `bw_method=cv` and a
bandwidth type outside `diagonal`, `covariance`, `equal`, the call is
rejected with a diagnostic to the caller, the selection is aborted, and
the prior bandwidth state (type, factor, covariance, Cholesky factor,
log-determinant) is left unchanged. -/
theorem C8_invalid_bw_type {dd n : ℕ}
    (eigh : Matrix (Fin dd) (Fin dd) ℝ → (Fin dd → ℝ) × Matrix (Fin dd) (Fin dd) ℝ)
    (cholesky : Matrix (Fin dd) (Fin dd) ℝ → Matrix (Fin dd) (Fin dd) ℝ)
    (minimizeVec : ((Fin dd → ℝ) → ℝ) → (Fin dd → ℝ) → (Fin dd → ℝ) × ℝ)
    (minimizeSc : (ℝ → ℝ) → ℝ → ℝ × ℝ)
    (dataset : Fin dd → Fin n → ℝ) (w : Fin n → ℝ) (st : KDEState dd)
    (bt : String) (k : Option ℕ)
    (h1 : bt ≠ "diagonal") (h2 : bt ≠ "covariance") (h3 : bt ≠ "equal") :
    set_bandwidth_cv eigh cholesky minimizeVec minimizeSc dataset w st bt k =
        (st, some invalidMsg) ∧
    (set_bandwidth_cv eigh cholesky minimizeVec minimizeSc dataset w st bt k).1.bw_type
        = st.bw_type ∧
    (set_bandwidth_cv eigh cholesky minimizeVec minimizeSc dataset w st bt k).1.factor
        = st.factor ∧
    (set_bandwidth_cv eigh cholesky minimizeVec minimizeSc dataset w st bt k).1.covariance
        = st.covariance ∧
    (set_bandwidth_cv eigh cholesky minimizeVec minimizeSc dataset w st bt k).1.cho_cov
        = st.cho_cov ∧
    (set_bandwidth_cv eigh cholesky minimizeVec minimizeSc dataset w st bt k).1.log_det
        = st.log_det := by
  have hmain : set_bandwidth_cv eigh cholesky minimizeVec minimizeSc dataset w st bt k =
      (st, some invalidMsg) := by
    rw [set_bandwidth_cv]
    simp [h1, h2, h3]
  exact ⟨hmain, by rw [hmain], by rw [hmain], by rw [hmain], by rw [hmain], by rw [hmain]⟩

/-- A concrete stand-in for the external eigendecomposition on `1 x 1`
matrices, used by the concrete instantiations below. -/
noncomputable def eigh1 : Matrix (Fin 1) (Fin 1) ℝ →
    (Fin 1 → ℝ) × Matrix (Fin 1) (Fin 1) ℝ :=
  fun A => (fun _ => A 0 0, 1)

/-- A concrete `1`-dimensional bandwidth state. -/
noncomputable def state1 : KDEState 1 :=
  ⟨"covariance_original", .covariance_original 1, .covariance_original 1,
    1, 1, 0, 0, 1⟩

/-- An unrecognised bandwidth type string. -/
def btFull : String := "full"

/-- Witness for C8 at a concrete state and an unrecognised type. -/
theorem C8_invalid_bw_type_witness :
    (btFull ≠ "diagonal" ∧ btFull ≠ "covariance" ∧ btFull ≠ "equal") ∧
    set_bandwidth_cv eigh1 id (fun _ h0 => (h0, 0)) (fun _ h0 => (h0, 0))
        (fun _ _ => (0 : ℝ) : Fin 1 → Fin 1 → ℝ) (fun _ => 1) state1 btFull none =
      (state1, some invalidMsg) :=
  ⟨⟨by decide, by decide, by decide⟩,
    (C8_invalid_bw_type eigh1 id (fun _ h0 => (h0, 0)) (fun _ h0 => (h0, 0))
      (fun _ _ => (0 : ℝ) : Fin 1 → Fin 1 → ℝ) (fun _ => 1) state1 btFull none
      (by decide) (by decide) (by decide)).1⟩

/-! ## Claim C2 : structure of the cross-validation objective -/

lemma negloglike_eq_fold_spec {dd : ℕ}
    (eigh : Matrix (Fin dd) (Fin dd) ℝ → (Fin dd → ℝ) × Matrix (Fin dd) (Fin dd) ℝ)
    (cov : Matrix (Fin dd) (Fin dd) ℝ) (test train : List (Fin dd → ℝ)) :
    -((mvn_pdfL eigh test train cov).map fun row =>
        Real.log (row.sum / (row.length : ℝ))).sum
      = fold_nll_spec eigh cov test train := by
  rw [mvn_pdfL, fold_nll_spec, List.map_map, neg_sum_map]
  congr 1
  apply List.map_congr_left
  intro x _
  simp [Function.comp, List.length_map]

/-- Claim C2: for every trial bandwidth and every split list, the
cross-validation objective is the unweighted mean over folds (sum divided
by the fold count) of the per-fold negative log-likelihood, which is the
sum over the fold test points of minus the log of the density, the
density at a test point being the mean (not the sum) over the fold train
kernels of the per-kernel Gaussian density; this holds for all three
bandwidth types. -/
theorem C2_cv_objective_structure {dd : ℕ}
    (eigh : Matrix (Fin dd) (Fin dd) ℝ → (Fin dd → ℝ) × Matrix (Fin dd) (Fin dd) ℝ)
    (hv : Fin dd → ℝ) (hc he : ℝ) (X : List (Fin dd → ℝ))
    (splits : List (List ℕ × List ℕ)) :
    negloglike_cv (negloglike_diagonal eigh hv) X splits =
      ((splits.map fun ij =>
        fold_nll_spec eigh (diagCov hv) (fancyIdx X ij.2) (fancyIdx X ij.1)).sum) /
        (splits.length : ℝ) ∧
    negloglike_cv (negloglike_covariance eigh hc) X splits =
      ((splits.map fun ij =>
        fold_nll_spec eigh (foldCov (fancyIdx X ij.1) hc)
          (fancyIdx X ij.2) (fancyIdx X ij.1)).sum) / (splits.length : ℝ) ∧
    negloglike_cv (negloglike_equal eigh he) X splits =
      ((splits.map fun ij =>
        fold_nll_spec eigh (eyeCov dd he) (fancyIdx X ij.2) (fancyIdx X ij.1)).sum) /
        (splits.length : ℝ) := by
  refine ⟨?_, ?_, ?_⟩
  · rw [negloglike_cv]
    congr 1
    congr 1
    apply List.map_congr_left
    intro ij _
    exact negloglike_eq_fold_spec eigh (diagCov hv) (fancyIdx X ij.2) (fancyIdx X ij.1)
  · rw [negloglike_cv]
    congr 1
    congr 1
    apply List.map_congr_left
    intro ij _
    exact negloglike_eq_fold_spec eigh (foldCov (fancyIdx X ij.1) hc)
      (fancyIdx X ij.2) (fancyIdx X ij.1)
  · rw [negloglike_cv]
    congr 1
    congr 1
    apply List.map_congr_left
    intro ij _
    exact negloglike_eq_fold_spec eigh (eyeCov dd he) (fancyIdx X ij.2) (fancyIdx X ij.1)

/-! ## Claim C9 : degenerate trial factors evaluate gracefully -/

lemma mvn_pdfL_row_mean_pos {dd : ℕ}
    (eigh : Matrix (Fin dd) (Fin dd) ℝ → (Fin dd → ℝ) × Matrix (Fin dd) (Fin dd) ℝ)
    (xeval xfit : List (Fin dd → ℝ)) (cov : Matrix (Fin dd) (Fin dd) ℝ)
    (hne : xfit ≠ []) :
    ∀ row ∈ mvn_pdfL eigh xeval xfit cov, 0 < row.sum / (row.length : ℝ) := by
  intro row hrow
  rw [mvn_pdfL] at hrow
  obtain ⟨x, _, rfl⟩ := List.mem_map.mp hrow
  apply div_pos
  · apply List.sum_pos
    · intro y hy
      obtain ⟨z, _, rfl⟩ := List.mem_map.mp hy
      exact Real.exp_pos _
    · simpa using hne
  · simpa [List.length_pos] using hne

/-- Claim C9: the trial factor is unconstrained (the statement quantifies
over every real factor, with no positivity hypothesis), and for every
factor - including zero and negative ones - every density value whose
logarithm the objective takes is strictly positive, so the objective
evaluates to a (finite) real number rather than failing; the eigenvalue
floor used inside the evaluator is strictly positive for every
eigenvalue. -/
theorem C9_unconstrained_graceful {dd : ℕ}
    (eigh : Matrix (Fin dd) (Fin dd) ℝ → (Fin dd → ℝ) × Matrix (Fin dd) (Fin dd) ℝ)
    (hv : Fin dd → ℝ) (hc he : ℝ) (xeval xfit : List (Fin dd → ℝ))
    (hne : xfit ≠ []) :
    (∀ row ∈ mvn_pdfL eigh xeval xfit (diagCov hv),
      0 < row.sum / (row.length : ℝ)) ∧
    (∀ row ∈ mvn_pdfL eigh xeval xfit (foldCov xfit hc),
      0 < row.sum / (row.length : ℝ)) ∧
    (∀ row ∈ mvn_pdfL eigh xeval xfit (eyeCov dd he),
      0 < row.sum / (row.length : ℝ)) ∧
    (∀ (s0 : Fin dd → ℝ) (c : Fin dd), 0 < floorEig s0 c) := by
  refine ⟨mvn_pdfL_row_mean_pos eigh xeval xfit _ hne,
    mvn_pdfL_row_mean_pos eigh xeval xfit _ hne,
    mvn_pdfL_row_mean_pos eigh xeval xfit _ hne, ?_⟩
  intro s0 c
  have h := abs_nonneg (s0 c)
  have h' := spacing1_pos
  rw [floorEig]
  linarith

/-- Witness for C9 at a negative scalar and negative vector factor. -/
theorem C9_unconstrained_graceful_witness :
    (([fun _ => 0] : List (Fin 1 → ℝ)) ≠ []) ∧
    ((∀ row ∈ mvn_pdfL eigh1 [fun _ => 1] [fun _ => 0] (diagCov fun _ => -1),
      0 < row.sum / (row.length : ℝ)) ∧
    (∀ row ∈ mvn_pdfL eigh1 [fun _ => 1] [fun _ => 0] (foldCov [fun _ => 0] (-1)),
      0 < row.sum / (row.length : ℝ)) ∧
    (∀ row ∈ mvn_pdfL eigh1 [fun _ => 1] [fun _ => 0] (eyeCov 1 0),
      0 < row.sum / (row.length : ℝ)) ∧
    (∀ (s0 : Fin 1 → ℝ) (c : Fin 1), 0 < floorEig s0 c)) :=
  ⟨by simp,
    C9_unconstrained_graceful eigh1 (fun _ => -1) (-1) 0
      [fun _ => 1] [fun _ => 0] (by simp)⟩

/-! ## Claim C3 : k-fold splitting -/

lemma sectionStart_zero (n k : ℕ) : sectionStart n k 0 = 0 := by
  simp [sectionStart]

lemma sectionStart_succ (n k j : ℕ) :
    sectionStart n k (j + 1) = sectionStart n k j + sectionSize n k j := by
  by_cases h : j < n % k
  · have h1 : min (j + 1) (n % k) = j + 1 := Nat.min_eq_left (Nat.succ_le_of_lt h)
    have h2 : min j (n % k) = j := Nat.min_eq_left (Nat.le_of_lt h)
    simp only [sectionStart, sectionSize, h, if_pos, h1, h2, Nat.succ_mul]
    ring
  · have h1 : min (j + 1) (n % k) = n % k :=
      Nat.min_eq_right (Nat.le_succ_of_le (Nat.le_of_not_lt h))
    have h2 : min j (n % k) = n % k := Nat.min_eq_right (Nat.le_of_not_lt h)
    simp only [sectionStart, sectionSize, h, if_false, h1, h2, Nat.succ_mul]
    ring

lemma sectionStart_mono (n k : ℕ) : Monotone (sectionStart n k) :=
  monotone_nat_of_le_succ fun j => by
    rw [sectionStart_succ]; exact Nat.le_add_right _ _

lemma sectionStart_self (n k : ℕ) (hk : 1 ≤ k) : sectionStart n k k = n := by
  have h : n % k < k := Nat.mod_lt _ hk
  rw [sectionStart, Nat.min_eq_right h.le, Nat.div_add_mod]

lemma arraySplit_getD (n k j : ℕ) (hj : j < k) :
    (arraySplit n k).getD j [] =
      (List.range (sectionSize n k j)).map fun t => sectionStart n k j + t := by
  rw [arraySplit, List.getD_eq_getElem?_getD]
  simp [List.getElem?_map, List.getElem?_range, hj]

lemma mem_block_iff (n k j t : ℕ) (hj : j < k) :
    t ∈ (arraySplit n k).getD j [] ↔
      sectionStart n k j ≤ t ∧ t < sectionStart n k j + sectionSize n k j := by
  rw [arraySplit_getD n k j hj]
  simp only [List.mem_map, List.mem_range]
  constructor
  · rintro ⟨a, ha, rfl⟩
    omega
  · rintro ⟨h1, h2⟩
    exact ⟨t - sectionStart n k j, by omega, by omega⟩

lemma block_tiling (n k : ℕ) :
    ∀ m, ∀ t, t < sectionStart n k m →
      ∃ j, j < m ∧ sectionStart n k j ≤ t ∧ t < sectionStart n k (j + 1) := by
  intro m
  induction m with
  | zero =>
      intro t ht
      rw [sectionStart_zero] at ht
      exact absurd ht (Nat.not_lt_zero t)
  | succ m ih =>
      intro t ht
      by_cases h : t < sectionStart n k m
      · obtain ⟨j, hj, hj2⟩ := ih t h
        exact ⟨j, Nat.lt_succ_of_lt hj, hj2⟩
      · exact ⟨m, Nat.lt_succ_self m, Nat.le_of_not_lt h, ht⟩

lemma block_unique (n k : ℕ) {j1 j2 t : ℕ}
    (h1 : sectionStart n k j1 ≤ t ∧ t < sectionStart n k (j1 + 1))
    (h2 : sectionStart n k j2 ≤ t ∧ t < sectionStart n k (j2 + 1)) : j1 = j2 := by
  by_contra hne
  rcases Nat.lt_or_ge j1 j2 with hlt | hge
  · have hmm : sectionStart n k (j1 + 1) ≤ sectionStart n k j2 :=
      sectionStart_mono n k (Nat.succ_le_of_lt hlt)
    omega
  · have hlt2 : j2 < j1 := by omega
    have hmm : sectionStart n k (j2 + 1) ≤ sectionStart n k j1 :=
      sectionStart_mono n k (Nat.succ_le_of_lt hlt2)
    omega

lemma kfold_split_getD (n k j : ℕ) (hj : j < k) :
    (kfold_split n k).getD j ([], []) =
      ((((List.range k).filter fun i => i ≠ j).map fun i =>
          (arraySplit n k).getD i []).flatten,
        (arraySplit n k).getD j []) := by
  rw [kfold_split, List.getD_eq_getElem?_getD]
  simp [List.getElem?_map, List.getElem?_range, hj]

lemma mem_train_iff (n k j t : ℕ) (hj : j < k) :
    t ∈ ((kfold_split n k).getD j ([], [])).1 ↔
      ∃ i, i < k ∧ i ≠ j ∧ t ∈ (arraySplit n k).getD i [] := by
  rw [kfold_split_getD n k j hj]
  simp only [List.mem_flatten, List.mem_map, List.mem_filter, List.mem_range,
    decide_eq_true_eq]
  constructor
  · rintro ⟨l, ⟨i, ⟨hik, hij⟩, rfl⟩, ht⟩
    exact ⟨i, hik, hij, ht⟩
  · rintro ⟨i, hik, hij, ht⟩
    exact ⟨(arraySplit n k).getD i [], ⟨i, ⟨hik, hij⟩, rfl⟩, ht⟩

/-- Claim C3 counterexample: at `n = 3`, `k = 2` the code produces test
blocks of sizes `[2, 1]` - the FIRST block absorbs the remainder - while
the claim predicts that the LAST blocks absorb it, i.e. sizes `[1, 2]`. -/
theorem C3_counterexample :
    ((kfold_split 3 2).map fun f => f.2.length) ≠ lastAbsorbSizes 3 2 := by
  decide

/-- Claim C3 (amended: the FIRST blocks absorb the remainder, not the
last): for `n >= k >= 1`, `kfold_split` produces exactly `k` folds from
`k` contiguous blocks split as evenly as possible, the first `n % k`
blocks having one extra element; each fold test set is one block, its
train set is the union of the other blocks, every index lies in exactly
one test set, train and test are disjoint within each fold, and the test
sets cover exactly the indices below `n`. -/
theorem C3_kfold_partition (n k : ℕ) (hk : 1 ≤ k) (_hkn : k ≤ n) :
    (kfold_split n k).length = k ∧
    (∀ j, j < k → (((kfold_split n k).getD j ([], [])).2).length
        = (if j < n % k then n / k + 1 else n / k)) ∧
    (∀ j, j < k → ∀ t, t ∈ ((kfold_split n k).getD j ([], [])).2 ↔
        sectionStart n k j ≤ t ∧ t < sectionStart n k j + sectionSize n k j) ∧
    (∀ t, t < n → ∃! j, j < k ∧ t ∈ ((kfold_split n k).getD j ([], [])).2) ∧
    (∀ j, j < k → ∀ t, ¬(t ∈ ((kfold_split n k).getD j ([], [])).1 ∧
        t ∈ ((kfold_split n k).getD j ([], [])).2)) ∧
    (∀ j, j < k → ∀ t, t ∈ ((kfold_split n k).getD j ([], [])).1 ↔
        ∃ i, i < k ∧ i ≠ j ∧ t ∈ ((kfold_split n k).getD i ([], [])).2) ∧
    (∀ t, (∃ j, j < k ∧ t ∈ ((kfold_split n k).getD j ([], [])).2) ↔ t < n) := by
  have htest : ∀ j, j < k → ((kfold_split n k).getD j ([], [])).2
      = (arraySplit n k).getD j [] := by
    intro j hj
    rw [kfold_split_getD n k j hj]
  have hmem : ∀ j, j < k → ∀ t, t ∈ ((kfold_split n k).getD j ([], [])).2 ↔
      sectionStart n k j ≤ t ∧ t < sectionStart n k j + sectionSize n k j := by
    intro j hj t
    rw [htest j hj]
    exact mem_block_iff n k j t hj
  refine ⟨?_, ?_, hmem, ?_, ?_, ?_, ?_⟩
  · simp [kfold_split]
  · intro j hj
    rw [htest j hj, arraySplit_getD n k j hj]
    simp [sectionSize]
  · intro t ht
    have ht' : t < sectionStart n k k := by rw [sectionStart_self n k hk]; exact ht
    obtain ⟨j, hj, hj1, hj2⟩ := block_tiling n k k t ht'
    rw [sectionStart_succ] at hj2
    refine ⟨j, ⟨hj, (hmem j hj t).mpr ⟨hj1, hj2⟩⟩, ?_⟩
    rintro j' ⟨hj', hmem'⟩
    have h' := (hmem j' hj' t).mp hmem'
    rw [← sectionStart_succ] at h' hj2
    exact block_unique n k h' ⟨hj1, hj2⟩
  · rintro j hj t ⟨htr, hte⟩
    obtain ⟨i, hik, hij, hti⟩ := (mem_train_iff n k j t hj).mp htr
    have hi := (mem_block_iff n k i t hik).mp hti
    have hjj := (hmem j hj t).mp hte
    rw [← sectionStart_succ] at hi hjj
    exact hij (block_unique n k hi hjj)
  · intro j hj t
    rw [mem_train_iff n k j t hj]
    constructor
    · rintro ⟨i, hik, hij, hti⟩
      exact ⟨i, hik, hij, by rw [htest i hik]; exact hti⟩
    · rintro ⟨i, hik, hij, hti⟩
      exact ⟨i, hik, hij, by rw [← htest i hik]; exact hti⟩
  · intro t
    constructor
    · rintro ⟨j, hj, hte⟩
      have h := (hmem j hj t).mp hte
      rw [← sectionStart_succ] at h
      have hmm : sectionStart n k (j + 1) ≤ sectionStart n k k :=
        sectionStart_mono n k (Nat.succ_le_of_lt hj)
      rw [sectionStart_self n k hk] at hmm
      omega
    · intro ht
      have ht' : t < sectionStart n k k := by rw [sectionStart_self n k hk]; exact ht
      obtain ⟨j, hj, hj1, hj2⟩ := block_tiling n k k t ht'
      rw [sectionStart_succ] at hj2
      exact ⟨j, hj, (hmem j hj t).mpr ⟨hj1, hj2⟩⟩

/-- Witness for C3 at `n = 5`, `k = 3`. -/
theorem C3_kfold_partition_witness :
    (1 ≤ 3 ∧ 3 ≤ 5) ∧
    ((kfold_split 5 3).length = 3 ∧
    (∀ j, j < 3 → (((kfold_split 5 3).getD j ([], [])).2).length
        = (if j < 5 % 3 then 5 / 3 + 1 else 5 / 3)) ∧
    (∀ j, j < 3 → ∀ t, t ∈ ((kfold_split 5 3).getD j ([], [])).2 ↔
        sectionStart 5 3 j ≤ t ∧ t < sectionStart 5 3 j + sectionSize 5 3 j) ∧
    (∀ t, t < 5 → ∃! j, j < 3 ∧ t ∈ ((kfold_split 5 3).getD j ([], [])).2) ∧
    (∀ j, j < 3 → ∀ t, ¬(t ∈ ((kfold_split 5 3).getD j ([], [])).1 ∧
        t ∈ ((kfold_split 5 3).getD j ([], [])).2)) ∧
    (∀ j, j < 3 → ∀ t, t ∈ ((kfold_split 5 3).getD j ([], [])).1 ↔
        ∃ i, i < 3 ∧ i ≠ j ∧ t ∈ ((kfold_split 5 3).getD i ([], [])).2) ∧
    (∀ t, (∃ j, j < 3 ∧ t ∈ ((kfold_split 5 3).getD j ([], [])).2) ↔ t < 5)) :=
  ⟨⟨by decide, by decide⟩, C3_kfold_partition 5 3 (by decide) (by decide)⟩

/-! ## Claim C4 : the refined Silverman factor -/

lemma sortR_eq_self {xs : List ℝ} (h : List.Sorted (· ≤ ·) xs) :
    sortR xs = xs :=
  List.mergeSort_eq_self h

/-- The concrete one-dimensional dataset `[[0, 1, 2]]`. -/
noncomputable def c4data : Fin 1 → Fin 3 → ℝ := fun _ t => (t.val : ℝ)

/-- Uniform normalised weights on three points. -/
noncomputable def c4w : Fin 3 → ℝ := fun _ => 1 / 3

lemma c4row : List.ofFn (c4data 0) = [0, 1, 2] := by
  simp [List.ofFn_succ, c4data]
  norm_num

lemma c4q25 : npQuantile [(0 : ℝ), 1, 2] 0.25 = 1 / 2 := by
  have hs : sortR [(0 : ℝ), 1, 2] = [0, 1, 2] :=
    sortR_eq_self (by norm_num [List.sorted_cons])
  have hh : (0.25 : ℝ) * (([(0 : ℝ), 1, 2].length : ℝ) - 1) = 1 / 2 := by
    norm_num
  have hfl : ⌊(1 / 2 : ℝ)⌋₊ = 0 := by
    rw [Nat.floor_eq_iff (by norm_num)]
    norm_num
  rw [npQuantile]
  rw [hs, hh, hfl]
  norm_num [List.getD_cons_zero, List.getD_cons_succ]

lemma c4q75 : npQuantile [(0 : ℝ), 1, 2] 0.75 = 3 / 2 := by
  have hs : sortR [(0 : ℝ), 1, 2] = [0, 1, 2] :=
    sortR_eq_self (by norm_num [List.sorted_cons])
  have hh : (0.75 : ℝ) * (([(0 : ℝ), 1, 2].length : ℝ) - 1) = 3 / 2 := by
    norm_num
  have hfl : ⌊(3 / 2 : ℝ)⌋₊ = 1 := by
    rw [Nat.floor_eq_iff (by norm_num)]
    norm_num
  rw [npQuantile]
  rw [hs, hh, hfl]
  norm_num [List.getD_cons_zero, List.getD_cons_succ]

lemma c4std : stdDdof1 (c4data 0) = 1 := by
  rw [stdDdof1, rowMean]
  norm_num [Fin.sum_univ_three, c4data]

lemma c4neff : neff c4w = 3 := by
  rw [neff]
  norm_num [Fin.sum_univ_three, c4w]

/-- Claim C4 counterexample: on the dataset `[[0, 1, 2]]` with uniform
weights, the code returns `0.9 * min(IQR/1.34, std) * neff^(-1/5) / std`,
which differs from the factor the claim states (which omits the leading
`0.9`). -/
theorem C4_counterexample :
    silverman_factor_ref c4data c4w 0 ≠ silverman_factor_spec c4data c4w 0 := by
  have hb : 0 < (3 : ℝ) ^ (-(1 / 5) : ℝ) :=
    Real.rpow_pos_of_pos (by norm_num) _
  simp only [silverman_factor_ref, silverman_factor_spec, c4row, c4q25, c4q75,
    c4std, c4neff]
  have hmin : min ((3 / 2 - 1 / 2 : ℝ) / 1.34) 1 = 1 / 1.34 := by
    rw [min_eq_left] <;> norm_num
  rw [hmin]
  intro heq
  nlinarith [hb, heq]

/-- Claim C4 (amended: the code multiplies the stated quantity by the
Silverman constant 0.9): `silverman_factor_ref` returns, per dimension,
`0.9 * min(IQR/1.34, std) * neff^(-1/5) / std`. -/
theorem C4_refined_silverman {dd n : ℕ} (dataset : Fin dd → Fin n → ℝ)
    (w : Fin n → ℝ) (r : Fin dd) :
    silverman_factor_ref dataset w r = 0.9 * silverman_factor_spec dataset w r := by
  simp only [silverman_factor_ref, silverman_factor_spec]
  ring

/-! ## Claim C1 : the MVN evaluator computes the Gaussian log-density -/

lemma floorEig_pos {dd : ℕ} (s0 : Fin dd → ℝ) (c : Fin dd) : 0 < floorEig s0 c := by
  have h := abs_nonneg (s0 c)
  have h' := spacing1_pos
  rw [floorEig]
  linarith

/-- Claim C1: for every batch of evaluation points, kernel centers and a
shared covariance whose library eigendecomposition is `(s0, u)` (with `u`
orthogonal and `cov = u diag(s0) uᵀ`), entry `(i, j)` of `_mvn_logpdf`
equals the multivariate-normal log-density
`-0.5 (d log(2 pi) + log det M + Mahalanobis^2)` taken with respect to
the eigenvalue-floored covariance `M = u diag(|s0| + eps) uᵀ`. -/
theorem C1_mvn_logpdf_density {dd m p : ℕ}
    (eigh : Matrix (Fin dd) (Fin dd) ℝ → (Fin dd → ℝ) × Matrix (Fin dd) (Fin dd) ℝ)
    (x : Fin m → Fin dd → ℝ) (mu : Fin p → Fin dd → ℝ)
    (cov : Matrix (Fin dd) (Fin dd) ℝ) (s0 : Fin dd → ℝ)
    (u : Matrix (Fin dd) (Fin dd) ℝ)
    (heigh : eigh cov = (s0, u)) (horth : uᵀ * u = 1)
    (_hdec : cov = u * Matrix.diagonal s0 * uᵀ) (i : Fin m) (j : Fin p) :
    mvn_logpdf eigh x mu cov i j =
      -0.5 * ((dd : ℝ) * Real.log (2 * Real.pi)
        + Real.log (u * Matrix.diagonal (floorEig s0) * uᵀ).det
        + (fun l => x i l - mu j l) ⬝ᵥ
            ((u * Matrix.diagonal (floorEig s0) * uᵀ)⁻¹ *ᵥ
              fun l => x i l - mu j l)) := by
  have hspos : ∀ c, 0 < floorEig s0 c := floorEig_pos s0
  have hsne : ∀ c, floorEig s0 c ≠ 0 := fun c => (hspos c).ne'
  have huu : u * uᵀ = 1 := Matrix.mul_eq_one_comm.mp horth
  have hdetu : uᵀ.det * u.det = 1 := by
    rw [← Matrix.det_mul, horth, Matrix.det_one]
  have hdet : (u * Matrix.diagonal (floorEig s0) * uᵀ).det = ∏ c, floorEig s0 c := by
    rw [Matrix.det_mul, Matrix.det_mul, Matrix.det_diagonal]
    calc u.det * (∏ c, floorEig s0 c) * uᵀ.det
        = (∏ c, floorEig s0 c) * (uᵀ.det * u.det) := by ring
      _ = ∏ c, floorEig s0 c := by rw [hdetu, mul_one]
  have hlogdet : Real.log ((u * Matrix.diagonal (floorEig s0) * uᵀ).det)
      = ∑ c, Real.log (floorEig s0 c) := by
    rw [hdet]
    exact Real.log_prod _ _ fun c _ => hsne c
  have hDD : Matrix.diagonal (floorEig s0) *
      Matrix.diagonal (fun c => (floorEig s0 c)⁻¹) = 1 := by
    rw [Matrix.diagonal_mul_diagonal]
    have hfun : (fun i => floorEig s0 i * (floorEig s0 i)⁻¹) = fun _ => (1 : ℝ) :=
      funext fun c => mul_inv_cancel₀ (hsne c)
    rw [hfun, Matrix.diagonal_one]
  have hinner : uᵀ * (u * (Matrix.diagonal (fun c => (floorEig s0 c)⁻¹) * uᵀ))
      = Matrix.diagonal (fun c => (floorEig s0 c)⁻¹) * uᵀ := by
    rw [← Matrix.mul_assoc, horth, Matrix.one_mul]
  have hinv : (u * Matrix.diagonal (floorEig s0) * uᵀ)⁻¹
      = u * Matrix.diagonal (fun c => (floorEig s0 c)⁻¹) * uᵀ := by
    apply Matrix.inv_eq_right_inv
    simp only [Matrix.mul_assoc]
    rw [hinner, ← Matrix.mul_assoc (Matrix.diagonal (floorEig s0)), hDD,
      Matrix.one_mul]
    exact huu
  have hquad : (fun l => x i l - mu j l) ⬝ᵥ
      ((u * Matrix.diagonal (floorEig s0) * uᵀ)⁻¹ *ᵥ fun l => x i l - mu j l)
      = ∑ c, (∑ l, (x i l - mu j l) * u l c) ^ 2 / floorEig s0 c := by
    have hswap : ∀ c : Fin dd, (∑ l, u l c * (x i l - mu j l))
        = ∑ l, (x i l - mu j l) * u l c :=
      fun c => Finset.sum_congr rfl fun l _ => mul_comm _ _
    rw [hinv, ← Matrix.mulVec_mulVec, ← Matrix.mulVec_mulVec,
      Matrix.dotProduct_mulVec]
    simp only [Matrix.vecMul, Matrix.mulVec, Matrix.dotProduct,
      Matrix.transpose_apply, Matrix.diagonal_apply, ite_mul, zero_mul,
      Finset.sum_ite_eq, Finset.mem_univ, if_true]
    apply Finset.sum_congr rfl
    intro c _
    rw [hswap c, div_eq_mul_inv]
    ring
  rw [mvn_logpdf, heigh]
  simp only [logpdfEntry]
  rw [hlogdet, hquad]

/-- Witness for C1: one evaluation point, one center, `cov = diag(2)` in
one dimension, with the identity eigenvector matrix. -/
theorem C1_mvn_logpdf_density_witness :
    (eigh1 (Matrix.diagonal fun _ => (2 : ℝ)) =
        ((fun _ => (2 : ℝ)), (1 : Matrix (Fin 1) (Fin 1) ℝ)) ∧
      (1 : Matrix (Fin 1) (Fin 1) ℝ)ᵀ * 1 = 1 ∧
      (Matrix.diagonal fun _ => (2 : ℝ)) =
        1 * Matrix.diagonal (fun _ => (2 : ℝ)) * (1 : Matrix (Fin 1) (Fin 1) ℝ)ᵀ) ∧
    mvn_logpdf eigh1 (fun _ _ => 1 : Fin 1 → Fin 1 → ℝ)
        (fun _ _ => 0 : Fin 1 → Fin 1 → ℝ)
        (Matrix.diagonal fun _ => (2 : ℝ)) 0 0 =
      -0.5 * (((1 : ℕ) : ℝ) * Real.log (2 * Real.pi)
        + Real.log ((1 : Matrix (Fin 1) (Fin 1) ℝ) *
            Matrix.diagonal (floorEig fun _ => (2 : ℝ)) *
            (1 : Matrix (Fin 1) (Fin 1) ℝ)ᵀ).det
        + ((fun _ => (1 : ℝ) - 0) : Fin 1 → ℝ) ⬝ᵥ
            (((1 : Matrix (Fin 1) (Fin 1) ℝ) *
                Matrix.diagonal (floorEig fun _ => (2 : ℝ)) *
                (1 : Matrix (Fin 1) (Fin 1) ℝ)ᵀ)⁻¹ *ᵥ fun _ => (1 : ℝ) - 0)) :=
  ⟨⟨by simp [eigh1], by simp, by simp⟩,
    C1_mvn_logpdf_density eigh1 (fun _ _ => 1 : Fin 1 → Fin 1 → ℝ)
      (fun _ _ => 0 : Fin 1 → Fin 1 → ℝ)
      (Matrix.diagonal fun _ => (2 : ℝ)) (fun _ => (2 : ℝ)) 1
      (by simp [eigh1]) (by simp) (by simp) 0 0⟩

/-! ## Claim C6 : Schur-complement conditioning -/

/-- Claim C6: in conditional sampling, for every query row and kernel the
conditional mean is the Schur-complement-corrected mean
`dataset[samp, kernel] + B C⁻¹ (x_cond[query] - dataset[cond, kernel])`,
and the conditional covariance is the Schur complement `A - B C⁻¹ Bᵀ`;
the latter takes no query or kernel argument, so it is a single matrix
shared by all kernels and queries. -/
theorem C6_schur_conditioning {dd r q m n : ℕ} (dataset : Fin dd → Fin n → ℝ)
    (cov : Matrix (Fin dd) (Fin dd) ℝ) (ss : Fin r → Fin dd) (sc : Fin q → Fin dd)
    (x_cond : Fin m → Fin q → ℝ) :
    cond_cov cov ss sc =
      cov.submatrix ss ss -
        (cov.submatrix ss sc * (cov.submatrix sc sc)⁻¹) * (cov.submatrix ss sc)ᵀ ∧
    (∀ (qi : Fin m) (j : Fin n), cond_mus dataset cov ss sc x_cond qi j =
      (fun t => dataset (ss t) j) +
        (cov.submatrix ss sc * (cov.submatrix sc sc)⁻¹) *ᵥ
          (fun c => x_cond qi c - dataset (sc c) j)) := by
  constructor
  · funext t t'
    simp [cond_cov, schurBCinv, Matrix.sub_apply, Matrix.mul_apply,
      Matrix.transpose_apply]
  · intro qi j
    funext t
    simp [cond_mus, schurBCinv, Pi.add_apply, Matrix.mulVec, Matrix.dotProduct]

/-! ## Claim C7 : conditional sample tensor shape -/

lemma dimsSamp_length {dd : ℕ} (l : List (Fin dd)) (hnd : l.Nodup) :
    (dimsSamp dd l).length = dd - l.length := by
  have hsplit := @List.length_eq_length_filter_add (Fin dd) (List.finRange dd)
    (fun i => i ∉ l)
  have hlen : (List.finRange dd).length = dd := List.length_finRange dd
  have hin : ((List.finRange dd).filter fun i => !(decide (i ∉ l))).length
      = l.length := by
    have h1 : ((List.finRange dd).filter fun i => !(decide (i ∉ l)))
        = (List.finRange dd).filter fun i => i ∈ l := by
      apply List.filter_congr
      intro a _
      simp [decide_not]
    rw [h1]
    have h2 : List.Perm ((List.finRange dd).filter fun i => i ∈ l) l := by
      rw [List.perm_ext_iff_of_nodup ((List.nodup_finRange dd).filter _) hnd]
      intro a
      simp [List.mem_filter, List.mem_finRange]
    exact h2.length_eq
  simp only [dimsSamp]
  omega

lemma expandRows_length {n : ℕ} {α : Type} (mus : Fin n → α)
    (counts : Fin n → ℕ) :
    (expandRows mus counts).length = ∑ j, counts j := by
  rw [expandRows, List.length_flatten, List.map_ofFn, List.sum_ofFn]
  simp [Function.comp, List.length_replicate]

/-- Claim C7: for valid input (`dims_cond` a duplicate-free index subset,
`counts` a multinomial draw summing to `size` per query), the sampler
complement has exactly `d - len(dims_cond)` dimensions, the expanded
mean list of every query has exactly `size` rows, and the output tensor
is indexed `(m, size, len(dims_samp))`. -/
theorem C7_output_shape {dd n m : ℕ} (dataset : Fin dd → Fin n → ℝ)
    (cov : Matrix (Fin dd) (Fin dd) ℝ) (size : ℕ) (dims_cond : List (Fin dd))
    (x_cond : Fin m → Fin dims_cond.length → ℝ) (counts : Fin m → Fin n → ℕ)
    (anoms : Fin m → Fin size → Fin (dimsSamp dd dims_cond).length → ℝ)
    (hnd : dims_cond.Nodup) (hcnt : ∀ qi, ∑ j, counts qi j = size) :
    (dimsSamp dd dims_cond).length = dd - dims_cond.length ∧
    (∀ qi, (expandRows (cond_mus dataset cov
        (fun t => (dimsSamp dd dims_cond).get t)
        (fun c => dims_cond.get c) x_cond qi) (counts qi)).length = size) ∧
    conditional_resample dataset cov size dims_cond x_cond counts anoms =
      fun qi (t : Fin size) s => (expandRows (cond_mus dataset cov
          (fun t' => (dimsSamp dd dims_cond).get t')
          (fun c => dims_cond.get c) x_cond qi) (counts qi)).getD (t : ℕ)
            (fun _ => 0) s
        + anoms qi t s := by
  refine ⟨dimsSamp_length dims_cond hnd, ?_, rfl⟩
  intro qi
  rw [expandRows_length]
  exact hcnt qi

/-- Concrete two-dimensional dataset with a single kernel. -/
noncomputable def c7dataset : Fin 2 → Fin 1 → ℝ := fun _ _ => 0

/-- Concrete conditioning values for one query on dimension 0. -/
noncomputable def c7x : Fin 1 → Fin (([0] : List (Fin 2)).length) → ℝ :=
  fun _ _ => 0

/-- Concrete noise draws. -/
noncomputable def c7anoms :
    Fin 1 → Fin 3 → Fin (dimsSamp 2 ([0] : List (Fin 2))).length → ℝ :=
  fun _ _ _ => 0

/-- Concrete multinomial counts: all 3 samples from the only kernel. -/
def c7counts : Fin 1 → Fin 1 → ℕ := fun _ _ => 3

/-- Witness for C7: one query conditioned on dimension 0 of a
2-dimensional model, 3 samples. -/
theorem C7_output_shape_witness :
    (([0] : List (Fin 2)).Nodup ∧ ∀ qi : Fin 1, (∑ j, c7counts qi j) = 3) ∧
    ((dimsSamp 2 ([0] : List (Fin 2))).length = 2 - ([0] : List (Fin 2)).length ∧
    (∀ qi, (expandRows (cond_mus c7dataset 1
        (fun t => (dimsSamp 2 ([0] : List (Fin 2))).get t)
        (fun c => ([0] : List (Fin 2)).get c) c7x qi) (c7counts qi)).length = 3) ∧
    conditional_resample c7dataset 1 3 [0] c7x c7counts c7anoms =
      fun qi (t : Fin 3) s => (expandRows (cond_mus c7dataset 1
          (fun t' => (dimsSamp 2 ([0] : List (Fin 2))).get t')
          (fun c => ([0] : List (Fin 2)).get c) c7x qi) (c7counts qi)).getD (t : ℕ)
            (fun _ => 0) s
        + c7anoms qi t s) :=
  ⟨⟨by decide, by decide⟩,
    C7_output_shape c7dataset 1 3 [0] c7x c7counts c7anoms (by decide) (by decide)⟩

end Kdetools
